import Mathlib

/-
Verification of the ShortCrypt library (src/src/lib.rs) against its
natural-language specification.

Modelling conventions:
  - Bytes are Nat values kept below 256; texts are lists of their UTF-8 bytes.
  - Machine arithmetic is explicit: u8 operations are taken mod 256 where the
    source can wrap, u64 accumulation is taken mod 2 ^ 64 at every step.
  - Rust Result values are Except String carrying the exact source error text.
  - The external collaborators fixed by the spec (CRC-8/CDMA2000, CRC-64/WE,
    URL-safe base-64 without padding, RFC 4648 base-32 without padding) are
    defined here from their contracts in spec section 6 and validated against
    the concrete reference vectors of spec section 8.
-/

set_option maxRecDepth 100000

/-- Big-endian byte decomposition of a 64-bit word: models the Rust pattern
transmute of a u64 value after to_be, used for hashed keys and sums. -/
def beBytes64 (x : Nat) : List Nat :=
  [x / 2 ^ 56 % 256, x / 2 ^ 48 % 256, x / 2 ^ 40 % 256, x / 2 ^ 32 % 256,
   x / 2 ^ 24 % 256, x / 2 ^ 16 % 256, x / 2 ^ 8 % 256, x % 256]

/-- Polynomial of CRC-64/WE, from the external contract in spec section 6. -/
def crc64poly : Nat := 0x42F0E1EBA9EA3693

/-- One MSB-first CRC-64 bit step. -/
def crc64bitStep (crc : Nat) : Nat :=
  if 2 ^ 63 ≤ crc then ((crc * 2) % 2 ^ 64) ^^^ crc64poly else (crc * 2) % 2 ^ 64

/-- One CRC-64 byte step: xor the byte into the top bits, then eight bit steps. -/
def crc64byteStep (crc b : Nat) : Nat := crc64bitStep^[8] (crc ^^^ b * 2 ^ 56)

/-- CRC-64/WE of a byte stream: init all ones, no reflection, xor-out all ones
(external collaborator, contract in spec section 6; validated by the
reference vectors of spec section 8). -/
def crc64we (l : List Nat) : Nat :=
  (l.foldl crc64byteStep 0xFFFFFFFFFFFFFFFF) ^^^ 0xFFFFFFFFFFFFFFFF

/-- Polynomial of CRC-8/CDMA2000, from the external contract in spec section 6. -/
def crc8poly : Nat := 0x9B

/-- One MSB-first CRC-8 bit step. -/
def crc8bitStep (crc : Nat) : Nat :=
  if 128 ≤ crc then ((crc * 2) % 256) ^^^ crc8poly else (crc * 2) % 256

/-- One CRC-8 byte step. -/
def crc8byteStep (crc b : Nat) : Nat := crc8bitStep^[8] (crc ^^^ b)

/-- CRC-8/CDMA2000 of a byte stream: init 0xFF, no reflection, no xor-out
(external collaborator, contract in spec section 6). -/
def crc8cdma2000 (l : List Nat) : Nat := l.foldl crc8byteStep 0xFF

/-- Reversal of the 64 bits of a word, bit i moving to bit 63 - i: models the
Rust u64 reverse_bits call in ShortCrypt::new. -/
def bitRev64 (x : Nat) : Nat :=
  (List.range 64).foldl (fun a i => a + x / 2 ^ i % 2 * 2 ^ (63 - i)) 0

/-- The key handle of src/src/lib.rs lines 94-97: an 8-byte hashed key and the
bit-reversed wrapping key sum. -/
structure ShortCrypt where
  hashed_key : List Nat
  key_sum_rev : Nat

/-- ShortCrypt::new (src/src/lib.rs lines 160-183): hashed_key is the CRC-64/WE
of the key in big-endian byte order, key_sum_rev the bit-reversed wrapping sum
of the key bytes. -/
def ShortCrypt.new (key : List Nat) : ShortCrypt :=
  { hashed_key := beBytes64 (crc64we key)
    key_sum_rev := bitRev64 (key.foldl (fun a b => (a + b) % 2 ^ 64) 0) }

/-- Fold of xor over a byte list starting from init: the running m byte of
encrypt and decrypt_inner. -/
def xorFold (init : Nat) (l : List Nat) : Nat := l.foldl (fun a v => a ^^^ v) init

/-- Fold of wrapping u64 addition over a byte list starting from init: the
running sum of encrypt, decrypt_inner and the transport functions. -/
def sumFold (init : Nat) (l : List Nat) : Nat :=
  l.foldl (fun a v => (a + v) % 2 ^ 64) (init % 2 ^ 64)

/-- The per-byte xor pass of encrypt step 3 and decrypt_inner step 5: byte at
running index i is xored with hashed_key[i mod 8] xor base. -/
def maskFrom (hk : List Nat) (base : Nat) : Nat → List Nat → List Nat
  | _, [] => []
  | i, d :: rest => (d ^^^ (hk.getD (i % 8) 0 ^^^ base)) :: maskFrom hk base (i + 1) rest

/-- The permutation path of src/src/lib.rs lines 226-231 and 283-288: CRC-64/WE
of the m byte followed by the big-endian sum bytes, each path entry reduced
mod len. For len = 0 the range is empty, so no entry and no modulus by zero is
ever produced. -/
def pathArr (hk : List Nat) (m s len : Nat) : List Nat :=
  let ha := beBytes64 (crc64we (m :: beBytes64 s))
  (List.range len).map (fun i => (ha.getD (i % 8) 0 ^^^ hk.getD (i % 8) 0) % len)

/-- Vec::swap on a list: exchange the entries at positions i and j. All call
sites keep both indices in bounds. -/
def listSwap (l : List Nat) (i j : Nat) : List Nat :=
  (l.set i (l.getD j 0)).set j (l.getD i 0)

/-- One iteration of the swap loops of encrypt and decrypt_inner, including the
i = p skip of the source. -/
def swapStep (l : List Nat) (i p : Nat) : List Nat :=
  if i = p then l else listSwap l i p

/-- The encrypt swap loop (src/src/lib.rs lines 233-239): swaps applied in
ascending index order, i being the index of the head of the remaining path. -/
def applyAsc (l : List Nat) : List Nat → Nat → List Nat
  | [], _ => l
  | p :: ps, i => applyAsc (swapStep l i p) ps (i + 1)

/-- The decrypt_inner swap loop (src/src/lib.rs lines 292-298): the same swap
sequence applied in descending index order. -/
def applyDesc (l : List Nat) : List Nat → Nat → List Nat
  | [], _ => l
  | p :: ps, i => swapStep (applyDesc l ps (i + 1)) i p

/-- ShortCrypt::encrypt (src/src/lib.rs lines 185-242): base is the CRC-8 of
the plaintext mod 32; the body is the masked plaintext permuted by the swap
sequence derived from the m byte and the wrapping sum of the masked bytes. -/
def ShortCrypt.encrypt (sc : ShortCrypt) (data : List Nat) : Nat × List Nat :=
  let base := crc8cdma2000 data % 32
  let enc := maskFrom sc.hashed_key base 0 data
  let m := xorFold base enc
  let s := sumFold base enc
  (base, applyAsc enc (pathArr sc.hashed_key m s data.length) 0)

/-- ShortCrypt::decrypt_inner (src/src/lib.rs lines 261-305): recompute m and
sum from the body, rebuild the path, undo the swaps in descending order, then
unmask. -/
def ShortCrypt.decryptInner (sc : ShortCrypt) (base : Nat) (data : List Nat) : List Nat :=
  let m := xorFold base data
  let s := sumFold base data
  maskFrom sc.hashed_key base 0 (applyDesc data (pathArr sc.hashed_key m s data.length) 0)

/-- Error text of ShortCrypt::decrypt for a base above 31. -/
def baseErrMsg : String := "The base is not correct."

/-- ShortCrypt::decrypt (src/src/lib.rs lines 244-259): reject base above 31,
otherwise run decrypt_inner. -/
def ShortCrypt.decrypt (sc : ShortCrypt) (c : Nat × List Nat) : Except String (List Nat) :=
  if 31 < c.1 then .error baseErrMsg else .ok (sc.decryptInner c.1 c.2)

/-- Character of one 6-bit value in the URL-safe base-64 alphabet. -/
def b64char (v : Nat) : Nat :=
  if v < 26 then v + 65
  else if v < 52 then v - 26 + 97
  else if v < 62 then v - 52 + 48
  else if v = 62 then 45
  else 95

/-- URL-safe base-64 encoding without padding (external collaborator, contract
in spec section 6), written over 3-byte chunks with div and mod arithmetic. -/
def b64encode : List Nat → List Nat
  | [] => []
  | [a] => [b64char (a / 4), b64char (a % 4 * 16)]
  | [a, b] => [b64char (a / 4), b64char (a % 4 * 16 + b / 16), b64char (b % 16 * 4)]
  | a :: b :: c :: rest =>
    b64char (a / 4) :: b64char (a % 4 * 16 + b / 16) :: b64char (b % 16 * 4 + c / 64) ::
      b64char (c % 64) :: b64encode rest

/-- Inverse of the URL-safe base-64 alphabet; none for a byte outside it. -/
def b64inv (c : Nat) : Option Nat :=
  if 65 ≤ c ∧ c ≤ 90 then some (c - 65)
  else if 97 ≤ c ∧ c ≤ 122 then some (c - 97 + 26)
  else if 48 ≤ c ∧ c ≤ 57 then some (c - 48 + 52)
  else if c = 45 then some 62
  else if c = 95 then some 63
  else none

/-- Reassembly of bytes from 6-bit values, failing on a length of 1 mod 4. -/
def b64decodeVals : List Nat → Option (List Nat)
  | [] => some []
  | [_] => none
  | [v1, v2] => some [v1 * 4 + v2 / 16]
  | [v1, v2, v3] => some [v1 * 4 + v2 / 16, v2 % 16 * 16 + v3 / 4]
  | v1 :: v2 :: v3 :: v4 :: rest =>
    (b64decodeVals rest).map
      (fun r => (v1 * 4 + v2 / 16) :: (v2 % 16 * 16 + v3 / 4) :: (v3 % 4 * 64 + v4) :: r)

/-- Map an inverse-alphabet lookup over a text, failing on the first invalid
byte. -/
def seqInv (f : Nat → Option Nat) : List Nat → Option (List Nat)
  | [] => some []
  | c :: rest =>
    match f c, seqInv f rest with
    | some v, some vs => some (v :: vs)
    | _, _ => none

/-- URL-safe base-64 decoding without padding (external collaborator, contract
in spec section 6). -/
def b64decode (s : List Nat) : Option (List Nat) := (seqInv b64inv s).bind b64decodeVals

/-- Character of one 5-bit value in the RFC 4648 base-32 alphabet. -/
def b32char (v : Nat) : Nat := if v < 26 then v + 65 else v - 26 + 50

/-- RFC 4648 base-32 encoding without padding (external collaborator, contract
in spec section 6), written over 5-byte chunks with div and mod arithmetic. -/
def b32encode : List Nat → List Nat
  | [] => []
  | [a] => [b32char (a / 8), b32char (a % 8 * 4)]
  | [a, b] => [b32char (a / 8), b32char (a % 8 * 4 + b / 64), b32char (b / 2 % 32),
      b32char (b % 2 * 16)]
  | [a, b, c] => [b32char (a / 8), b32char (a % 8 * 4 + b / 64), b32char (b / 2 % 32),
      b32char (b % 2 * 16 + c / 16), b32char (c % 16 * 2)]
  | [a, b, c, d] => [b32char (a / 8), b32char (a % 8 * 4 + b / 64), b32char (b / 2 % 32),
      b32char (b % 2 * 16 + c / 16), b32char (c % 16 * 2 + d / 128), b32char (d / 4 % 32),
      b32char (d % 4 * 8)]
  | a :: b :: c :: d :: e :: rest =>
    b32char (a / 8) :: b32char (a % 8 * 4 + b / 64) :: b32char (b / 2 % 32) ::
      b32char (b % 2 * 16 + c / 16) :: b32char (c % 16 * 2 + d / 128) :: b32char (d / 4 % 32) ::
      b32char (d % 4 * 8 + e / 32) :: b32char (e % 32) :: b32encode rest

/-- Inverse of the RFC 4648 base-32 alphabet; none for a byte outside it, so in
particular for every non-ASCII byte. The source pipes the candidate body
through String::from_utf8 before the external base-32 decode; both that check
and the decode reject any byte outside the uppercase alphabet, so their
composition is modelled by this single lookup. -/
def b32inv (c : Nat) : Option Nat :=
  if 65 ≤ c ∧ c ≤ 90 then some (c - 65)
  else if 50 ≤ c ∧ c ≤ 55 then some (c - 50 + 26)
  else none

/-- Reassembly of bytes from 5-bit values, failing on a length of 1, 3 or 6
mod 8. -/
def b32decodeVals : List Nat → Option (List Nat)
  | [] => some []
  | [_] => none
  | [v1, v2] => some [v1 * 8 + v2 / 4]
  | [_, _, _] => none
  | [v1, v2, v3, v4] => some [v1 * 8 + v2 / 4, v2 % 4 * 64 + v3 * 2 + v4 / 16]
  | [v1, v2, v3, v4, v5] =>
    some [v1 * 8 + v2 / 4, v2 % 4 * 64 + v3 * 2 + v4 / 16, v4 % 16 * 16 + v5 / 2]
  | [_, _, _, _, _, _] => none
  | [v1, v2, v3, v4, v5, v6, v7] =>
    some [v1 * 8 + v2 / 4, v2 % 4 * 64 + v3 * 2 + v4 / 16, v4 % 16 * 16 + v5 / 2,
      v5 % 2 * 128 + v6 * 4 + v7 / 8]
  | v1 :: v2 :: v3 :: v4 :: v5 :: v6 :: v7 :: v8 :: rest =>
    (b32decodeVals rest).map
      (fun r => (v1 * 8 + v2 / 4) :: (v2 % 4 * 64 + v3 * 2 + v4 / 16) :: (v4 % 16 * 16 + v5 / 2) ::
        (v5 % 2 * 128 + v6 * 4 + v7 / 8) :: (v7 % 8 * 32 + v8) :: r)

/-- RFC 4648 base-32 decoding without padding (external collaborator, contract
in spec section 6). -/
def b32decode (s : List Nat) : Option (List Nat) := (seqInv b32inv s).bind b32decodeVals

/-- The u8_to_string_64 macro (src/src/lib.rs lines 106-120). -/
def u8ToString64 (i : Nat) : Nat :=
  if i < 10 then i + 48
  else if 10 ≤ i ∧ i < 36 then i - 10 + 65
  else if 36 ≤ i ∧ i < 62 then i - 36 + 97
  else if i = 62 then 45
  else 95

/-- The string_64_to_u8 macro (src/src/lib.rs lines 122-136); every arithmetic
branch is guarded by its range test, so no u8 wrap can occur. -/
def string64ToU8 (c : Nat) : Nat :=
  if 48 ≤ c ∧ c ≤ 57 then c - 48
  else if 65 ≤ c ∧ c ≤ 90 then c + 10 - 65
  else if 97 ≤ c ∧ c ≤ 122 then c + 36 - 97
  else if c = 45 then 62
  else 63

/-- The u8_to_string_32 macro (src/src/lib.rs lines 138-146). -/
def u8ToString32 (i : Nat) : Nat := if i < 10 then i + 48 else i - 10 + 65

/-- The string_32_to_u8 macro (src/src/lib.rs lines 148-156). The fallback
branch computes c + 10 - 65 in u8 arithmetic, which wraps for bytes below 55
or above 245; release-mode wrapping is modelled as mod 256, making the map
total on every input byte. -/
def string32ToU8 (c : Nat) : Nat :=
  if 48 ≤ c ∧ c ≤ 57 then c - 48 else (c + 10 + 256 - 65) % 256

/-- Error text of the URL-component decrypt functions. -/
def urlErrMsg : String := "The URL component is incorrect."

/-- Error text of the QR-code decrypt functions. -/
def qrErrMsg : String := "The QR code alphanumeric text is incorrect."

/-- ShortCrypt::encrypt_to_url_component (src/src/lib.rs lines 307-329). Note
that the source rebinds base to its base-64 character before seeding the sum,
so sumFold starts from the ASCII code of the base character. -/
def ShortCrypt.encryptToUrlComponent (sc : ShortCrypt) (data : List Nat) : List Nat :=
  let be := sc.encrypt data
  let bc := u8ToString64 be.1
  let res := b64encode be.2
  let bi := (sc.key_sum_rev ^^^ sumFold bc res) % (res.length + 1)
  List.insertIdx bi bc res

/-- ShortCrypt::decrypt_url_component (src/src/lib.rs lines 362-395). -/
def ShortCrypt.decryptUrlComponent (sc : ShortCrypt) (bytes : List Nat) :
    Except String (List Nat) :=
  if bytes.length < 1 then .error urlErrMsg
  else
    let bi := (sc.key_sum_rev ^^^ sumFold 0 bytes) % bytes.length
    let base := string64ToU8 (bytes.getD bi 0)
    if 31 < base then .error urlErrMsg
    else
      match b64decode (bytes.take bi ++ bytes.drop (bi + 1)) with
      | none => .error urlErrMsg
      | some enc => sc.decrypt (base, enc)

/-- ShortCrypt::encrypt_to_qr_code_alphanumeric (src/src/lib.rs lines 439-466);
as in the URL form, the sum is seeded with the ASCII code of the base
character. -/
def ShortCrypt.encryptToQrCodeAlphanumeric (sc : ShortCrypt) (data : List Nat) : List Nat :=
  let be := sc.encrypt data
  let bc := u8ToString32 be.1
  let res := b32encode be.2
  let bi := (sc.key_sum_rev ^^^ sumFold bc res) % (res.length + 1)
  List.insertIdx bi bc res

/-- ShortCrypt::decrypt_qr_code_alphanumeric (src/src/lib.rs lines 507-549);
the from_utf8 check of the source is folded into b32decode, see b32inv. -/
def ShortCrypt.decryptQrCodeAlphanumeric (sc : ShortCrypt) (bytes : List Nat) :
    Except String (List Nat) :=
  if bytes.length < 1 then .error qrErrMsg
  else
    let bi := (sc.key_sum_rev ^^^ sumFold 0 bytes) % bytes.length
    let base := string32ToU8 (bytes.getD bi 0)
    if 31 < base then .error qrErrMsg
    else
      match b32decode (bytes.take bi ++ bytes.drop (bi + 1)) with
      | none => .error qrErrMsg
      | some enc => sc.decrypt (base, enc)

/-- ShortCrypt::encrypt_to_url_component_and_push_to_string (src/src/lib.rs
lines 331-360): encode into the tail of the output buffer, sum over the bytes
past the original length, insert at the original length plus the offset. -/
def ShortCrypt.encryptToUrlComponentAndPushToString (sc : ShortCrypt) (data output : List Nat) :
    List Nat :=
  let be := sc.encrypt data
  let bc := u8ToString64 be.1
  let originalLen := output.length
  let out2 := output ++ b64encode be.2
  let bi := (sc.key_sum_rev ^^^ sumFold bc (out2.drop originalLen)) %
    (out2.length - originalLen + 1)
  List.insertIdx (originalLen + bi) bc out2

/-- ShortCrypt::encrypt_to_qr_code_alphanumeric_and_push_to_string
(src/src/lib.rs lines 468-505). -/
def ShortCrypt.encryptToQrCodeAlphanumericAndPushToString (sc : ShortCrypt)
    (data output : List Nat) : List Nat :=
  let be := sc.encrypt data
  let bc := u8ToString32 be.1
  let originalLen := output.length
  let out2 := output ++ b32encode be.2
  let bi := (sc.key_sum_rev ^^^ sumFold bc (out2.drop originalLen)) %
    (out2.length - originalLen + 1)
  List.insertIdx (originalLen + bi) bc out2

/-- Variant of encryptToUrlComponent that follows the words of spec section 4.4
step 4 instead of the source: the insertion sum is seeded with the numeric base
value in [0, 31] rather than the ASCII code of the base character. Only used to
compare the spec formula with the code. -/
def encryptToUrlComponentSpecSum (sc : ShortCrypt) (data : List Nat) : List Nat :=
  let be := sc.encrypt data
  let bc := u8ToString64 be.1
  let res := b64encode be.2
  let bi := (sc.key_sum_rev ^^^ sumFold be.1 res) % (res.length + 1)
  List.insertIdx bi bc res

/-- ASCII bytes of the reference key of spec section 8. -/
def keyMagickey : List Nat := [109, 97, 103, 105, 99, 107, 101, 121]

/-- ASCII bytes of the reference plaintext of spec section 8. -/
def ptArticles : List Nat := [97, 114, 116, 105, 99, 108, 101, 115]

/-- ASCII bytes of the reference URL component of spec section 8. -/
def urlArticles : List Nat := [50, 69, 56, 55, 87, 120, 53, 50, 45, 84, 118, 111]

/-- ASCII bytes of the reference QR text of spec section 8. -/
def qrArticles : List Nat := [51, 66, 72, 78, 78, 82, 52, 53, 88, 90, 72, 56, 80, 85]

theorem set_getElem_self_aux (l : List Nat) (i : Nat) (h : i < l.length) : l.set i l[i] = l := by
  apply List.ext_getElem
  · simp
  · intro n h1 h2
    rw [List.getElem_set]
    split
    · subst n; rfl
    · rfl

theorem listSwap_length (l : List Nat) (i j : Nat) : (listSwap l i j).length = l.length := by
  simp [listSwap]

theorem swapStep_length (l : List Nat) (i p : Nat) : (swapStep l i p).length = l.length := by
  unfold swapStep
  split
  · rfl
  · exact listSwap_length l i p

theorem applyAsc_length (path : List Nat) (l : List Nat) (i : Nat) :
    (applyAsc l path i).length = l.length := by
  induction path generalizing l i with
  | nil => rfl
  | cons p ps ih => rw [applyAsc, ih, swapStep_length]

theorem applyDesc_length (path : List Nat) (l : List Nat) (i : Nat) :
    (applyDesc l path i).length = l.length := by
  induction path generalizing i with
  | nil => rfl
  | cons p ps ih => rw [applyDesc, swapStep_length, ih]

theorem swapStep_swapStep (l : List Nat) (i p : Nat) (hi : i < l.length) (hp : p < l.length) :
    swapStep (swapStep l i p) i p = l := by
  unfold swapStep
  split
  · rfl
  · rename_i hne
    unfold listSwap
    rw [List.getD_eq_getElem _ _ hp, List.getD_eq_getElem _ _ hi]
    have hm1 : ((l.set i l[p]).set p l[i]).getD p 0 = l[i] := by
      rw [List.getD_eq_getElem _ _ (by simp [hp])]
      exact List.getElem_set_eq (by simp [hp])
    have hm2 : ((l.set i l[p]).set p l[i]).getD i 0 = l[p] := by
      rw [List.getD_eq_getElem _ _ (by simp [hi])]
      rw [List.getElem_set_ne (Ne.symm hne)]
      exact List.getElem_set_eq (by simp [hi])
    rw [hm1, hm2]
    rw [List.set_comm _ _ _ (Ne.symm hne), List.set_set, List.set_set,
        set_getElem_self_aux _ _ hi, set_getElem_self_aux _ _ hp]

theorem getD_cons_set_perm (t : List Nat) (j : Nat) (hj : j < t.length) (a : Nat) :
    (t.getD j 0 :: t.set j a).Perm (a :: t) := by
  induction t generalizing j with
  | nil => simp at hj
  | cons b t ih =>
    cases j with
    | zero => simpa using List.Perm.swap a b t
    | succ j =>
      have hj2 : j < t.length := by simpa using hj
      have step1 : (((b :: t).getD (j + 1) 0) :: (b :: t).set (j + 1) a).Perm
          (b :: t.getD j 0 :: t.set j a) := by
        simpa using List.Perm.swap b (t.getD j 0) (t.set j a)
      exact step1.trans ((List.Perm.cons b (ih j hj2)).trans (List.Perm.swap a b t))

theorem listSwap_perm (l : List Nat) (i p : Nat) (hi : i < l.length) (hp : p < l.length) :
    (listSwap l i p).Perm l := by
  unfold listSwap
  induction l generalizing i p with
  | nil => simp at hi
  | cons a t ih =>
    cases i with
    | zero =>
      cases p with
      | zero => simp
      | succ q =>
        have hq : q < t.length := by simpa using hp
        simpa using getD_cons_set_perm t q hq a
    | succ r =>
      have hr : r < t.length := by simpa using hi
      cases p with
      | zero =>
        simpa using getD_cons_set_perm t r hr a
      | succ q =>
        have hq : q < t.length := by simpa using hp
        simpa using List.Perm.cons a (ih r q hr hq)

theorem swapStep_perm (l : List Nat) (i p : Nat) (hi : i < l.length) (hp : p < l.length) :
    (swapStep l i p).Perm l := by
  unfold swapStep
  split
  · exact List.Perm.refl l
  · exact listSwap_perm l i p hi hp

theorem applyAsc_perm (path : List Nat) (l : List Nat) (i : Nat)
    (hb : ∀ p ∈ path, p < l.length) (hi : i + path.length ≤ l.length) :
    (applyAsc l path i).Perm l := by
  induction path generalizing l i with
  | nil => exact List.Perm.refl l
  | cons p ps ih =>
    rw [applyAsc]
    have hil : i < l.length := by simp at hi; omega
    have hpl : p < l.length := hb p (by simp)
    have hlen : (swapStep l i p).length = l.length := swapStep_length l i p
    refine (ih (swapStep l i p) (i + 1) ?_ ?_).trans (swapStep_perm l i p hil hpl)
    · intro q hq
      rw [hlen]
      exact hb q (by simp [hq])
    · rw [hlen]
      simp at hi
      omega

theorem applyDesc_applyAsc (path : List Nat) (l : List Nat) (i : Nat)
    (hb : ∀ p ∈ path, p < l.length) (hi : i + path.length ≤ l.length) :
    applyDesc (applyAsc l path i) path i = l := by
  induction path generalizing l i with
  | nil => rfl
  | cons p ps ih =>
    rw [applyAsc, applyDesc]
    have hil : i < l.length := by simp at hi; omega
    have hpl : p < l.length := hb p (by simp)
    have hlen : (swapStep l i p).length = l.length := swapStep_length l i p
    rw [ih (swapStep l i p) (i + 1) (fun q hq => by rw [hlen]; exact hb q (by simp [hq]))
        (by rw [hlen]; simp at hi; omega)]
    exact swapStep_swapStep l i p hil hpl

theorem foldl_perm_rc (f : Nat → Nat → Nat) (hf : ∀ a x y, f (f a x) y = f (f a y) x)
    {l₁ l₂ : List Nat} (p : l₁.Perm l₂) : ∀ b, l₁.foldl f b = l₂.foldl f b := by
  induction p with
  | nil => intro b; rfl
  | cons x _ ih => intro b; simp only [List.foldl_cons]; exact ih _
  | swap x y l => intro b; simp only [List.foldl_cons]; rw [hf]
  | trans _ _ ih1 ih2 => intro b; rw [ih1 b, ih2 b]

theorem xorFold_perm {l₁ l₂ : List Nat} (p : l₁.Perm l₂) (b : Nat) :
    xorFold b l₁ = xorFold b l₂ :=
  foldl_perm_rc _ (fun a x y => by rw [Nat.xor_assoc, Nat.xor_comm x y, Nat.xor_assoc]) p b

theorem sumFold_perm {l₁ l₂ : List Nat} (p : l₁.Perm l₂) (b : Nat) :
    sumFold b l₁ = sumFold b l₂ :=
  foldl_perm_rc _ (fun a x y => by rw [Nat.mod_add_mod, Nat.mod_add_mod, Nat.add_right_comm]) p _

theorem sumFold_eq_sum (l : List Nat) : ∀ init : Nat, sumFold init l = (init + l.sum) % 2 ^ 64 := by
  induction l with
  | nil => intro init; simp [sumFold]
  | cons v t ih =>
    intro init
    have h1 : sumFold init (v :: t) = sumFold (init + v) t := by
      simp only [sumFold, List.foldl_cons, Nat.mod_add_mod]
    rw [h1, ih (init + v), List.sum_cons]
    ring_nf

theorem maskFrom_length (hk : List Nat) (base : Nat) (l : List Nat) :
    ∀ i, (maskFrom hk base i l).length = l.length := by
  induction l with
  | nil => intro i; rfl
  | cons d rest ih => intro i; rw [maskFrom]; simpa using ih (i + 1)

theorem maskFrom_maskFrom (hk : List Nat) (base : Nat) (l : List Nat) :
    ∀ i, maskFrom hk base i (maskFrom hk base i l) = l := by
  induction l with
  | nil => intro i; rfl
  | cons d rest ih =>
    intro i
    rw [maskFrom, maskFrom, Nat.xor_cancel_right, ih (i + 1)]

theorem maskFrom_mem_lt (hk : List Nat) (base : Nat) (l : List Nat)
    (hhk : ∀ x ∈ hk, x < 256) (hbase : base < 256) (hl : ∀ x ∈ l, x < 256) :
    ∀ i, ∀ x ∈ maskFrom hk base i l, x < 256 := by
  induction l with
  | nil => intro i x hx; simp [maskFrom] at hx
  | cons d rest ih =>
    intro i x hx
    rw [maskFrom] at hx
    rcases List.mem_cons.mp hx with h | h
    · subst h
      have hd : d < 256 := hl d (by simp)
      have hoff : hk.getD (i % 8) 0 ^^^ base < 256 := by
        have : hk.getD (i % 8) 0 < 256 := by
          rcases Nat.lt_or_ge (i % 8) hk.length with hlt | hge
          · rw [List.getD_eq_getElem _ _ hlt]
            exact hhk _ (List.getElem_mem hlt)
          · rw [List.getD_eq_default _ _ hge]; norm_num
        exact Nat.bitwise_lt_two_pow (n := 8) this hbase
      exact Nat.bitwise_lt_two_pow (n := 8) hd hoff
    · exact ih (fun x hx => hl x (by simp [hx])) (i + 1) x h

theorem pathArr_length (hk : List Nat) (m s len : Nat) : (pathArr hk m s len).length = len := by
  simp [pathArr]

theorem pathArr_mem_lt (hk : List Nat) (m s len : Nat) :
    ∀ p ∈ pathArr hk m s len, p < len := by
  intro p hp
  simp only [pathArr, List.mem_map, List.mem_range] at hp
  obtain ⟨i, hi, rfl⟩ := hp
  exact Nat.mod_lt _ (by omega)

theorem decryptInner_encrypt (sc : ShortCrypt) (data : List Nat) :
    sc.decryptInner (sc.encrypt data).1 (sc.encrypt data).2 = data := by
  unfold ShortCrypt.encrypt ShortCrypt.decryptInner
  simp only []
  set base := crc8cdma2000 data % 32 with hbase
  set enc := maskFrom sc.hashed_key base 0 data with henc
  set path := pathArr sc.hashed_key (xorFold base enc) (sumFold base enc) data.length with hpath
  set body := applyAsc enc path 0 with hbody
  have hlen_enc : enc.length = data.length := maskFrom_length _ _ _ 0
  have hpl : path.length = data.length := pathArr_length _ _ _ _
  have hb : ∀ p ∈ path, p < enc.length := by
    intro p hp
    rw [hlen_enc]
    exact pathArr_mem_lt _ _ _ _ p hp
  have hi0 : 0 + path.length ≤ enc.length := by omega
  have hperm : body.Perm enc := applyAsc_perm path enc 0 hb hi0
  have hblen : body.length = data.length := by
    rw [hbody, applyAsc_length, hlen_enc]
  have hm : xorFold base body = xorFold base enc := xorFold_perm hperm base
  have hs : sumFold base body = sumFold base enc := sumFold_perm hperm base
  rw [hblen, hm, hs, ← hpath, applyDesc_applyAsc path enc 0 hb hi0, maskFrom_maskFrom]

theorem b64inv_b64char : ∀ v < 64, b64inv (b64char v) = some v := by decide

theorem b64decode_encode : ∀ l : List Nat, (∀ x ∈ l, x < 256) →
    b64decode (b64encode l) = some l
  | [], _ => by simp [b64encode, b64decode, seqInv, b64decodeVals]
  | [a], h => by
    have ha : a < 256 := h a (by simp)
    rw [b64encode, b64decode, seqInv, b64inv_b64char _ (by omega), seqInv,
        b64inv_b64char _ (by omega), seqInv]
    simp only [Option.some_bind]
    have hv : b64decodeVals [a / 4, a % 4 * 16] = some [a / 4 * 4 + a % 4 * 16 / 16] := rfl
    rw [hv]
    congr 2
    omega
  | [a, b], h => by
    have ha : a < 256 := h a (by simp)
    have hb : b < 256 := h b (by simp)
    rw [b64encode, b64decode, seqInv, b64inv_b64char _ (by omega), seqInv,
        b64inv_b64char _ (by omega), seqInv, b64inv_b64char _ (by omega), seqInv]
    simp only [Option.some_bind]
    have hv : b64decodeVals [a / 4, a % 4 * 16 + b / 16, b % 16 * 4] =
        some [a / 4 * 4 + (a % 4 * 16 + b / 16) / 16,
          (a % 4 * 16 + b / 16) % 16 * 16 + b % 16 * 4 / 4] := rfl
    rw [hv]
    have e1 : a / 4 * 4 + (a % 4 * 16 + b / 16) / 16 = a := by omega
    have e2 : (a % 4 * 16 + b / 16) % 16 * 16 + b % 16 * 4 / 4 = b := by omega
    rw [e1, e2]
  | a :: b :: c :: rest, h => by
    have ha : a < 256 := h a (by simp)
    have hb : b < 256 := h b (by simp)
    have hc : c < 256 := h c (by simp)
    have ih := b64decode_encode rest (fun x hx => h x (by simp [hx]))
    rw [b64decode] at ih
    obtain ⟨vs, hvs, hdec⟩ : ∃ vs, seqInv b64inv (b64encode rest) = some vs ∧
        b64decodeVals vs = some rest := by
      cases hseq : seqInv b64inv (b64encode rest) with
      | none => rw [hseq] at ih; simp at ih
      | some vs => rw [hseq] at ih; exact ⟨vs, rfl, by simpa using ih⟩
    rw [show b64encode (a :: b :: c :: rest) =
        b64char (a / 4) :: b64char (a % 4 * 16 + b / 16) :: b64char (b % 16 * 4 + c / 64) ::
        b64char (c % 64) :: b64encode rest from rfl]
    rw [b64decode, seqInv, b64inv_b64char _ (by omega), seqInv, b64inv_b64char _ (by omega),
        seqInv, b64inv_b64char _ (by omega), seqInv, b64inv_b64char _ (by omega), hvs]
    have hlong : ∀ w x y z : Nat, ∀ ws, b64decodeVals (w :: x :: y :: z :: ws) =
        (b64decodeVals ws).map
          (fun r => (w * 4 + x / 16) :: (x % 16 * 16 + y / 4) :: (y % 4 * 64 + z) :: r) :=
      fun w x y z ws => rfl
    simp only [Option.some_bind, hlong, hdec, Option.map_some]
    have e1 : a / 4 * 4 + (a % 4 * 16 + b / 16) / 16 = a := by omega
    have e2 : (a % 4 * 16 + b / 16) % 16 * 16 + (b % 16 * 4 + c / 64) / 4 = b := by omega
    have e3 : (b % 16 * 4 + c / 64) % 4 * 64 + c % 64 = c := by omega
    rw [e1, e2, e3]
    rfl

theorem b32inv_b32char : ∀ v < 32, b32inv (b32char v) = some v := by decide

theorem b32decode_encode : ∀ l : List Nat, (∀ x ∈ l, x < 256) →
    b32decode (b32encode l) = some l
  | [], _ => by simp [b32encode, b32decode, seqInv, b32decodeVals]
  | [a], h => by
    have ha : a < 256 := h a (by simp)
    rw [b32encode, b32decode, seqInv, b32inv_b32char _ (by omega), seqInv,
        b32inv_b32char _ (by omega), seqInv]
    simp only [Option.some_bind]
    have hv : b32decodeVals [a / 8, a % 8 * 4] = some [a / 8 * 8 + a % 8 * 4 / 4] := rfl
    rw [hv]
    congr 2
    omega
  | [a, b], h => by
    have ha : a < 256 := h a (by simp)
    have hb : b < 256 := h b (by simp)
    rw [b32encode, b32decode, seqInv, b32inv_b32char _ (by omega), seqInv,
        b32inv_b32char _ (by omega), seqInv, b32inv_b32char _ (by omega), seqInv,
        b32inv_b32char _ (by omega), seqInv]
    simp only [Option.some_bind]
    have hv : b32decodeVals [a / 8, a % 8 * 4 + b / 64, b / 2 % 32, b % 2 * 16] =
        some [a / 8 * 8 + (a % 8 * 4 + b / 64) / 4,
          (a % 8 * 4 + b / 64) % 4 * 64 + b / 2 % 32 * 2 + b % 2 * 16 / 16] := rfl
    rw [hv]
    have e1 : a / 8 * 8 + (a % 8 * 4 + b / 64) / 4 = a := by omega
    have e2 : (a % 8 * 4 + b / 64) % 4 * 64 + b / 2 % 32 * 2 + b % 2 * 16 / 16 = b := by omega
    rw [e1, e2]
  | [a, b, c], h => by
    have ha : a < 256 := h a (by simp)
    have hb : b < 256 := h b (by simp)
    have hc : c < 256 := h c (by simp)
    rw [b32encode, b32decode, seqInv, b32inv_b32char _ (by omega), seqInv,
        b32inv_b32char _ (by omega), seqInv, b32inv_b32char _ (by omega), seqInv,
        b32inv_b32char _ (by omega), seqInv, b32inv_b32char _ (by omega), seqInv]
    simp only [Option.some_bind]
    have hv : b32decodeVals [a / 8, a % 8 * 4 + b / 64, b / 2 % 32, b % 2 * 16 + c / 16,
        c % 16 * 2] =
        some [a / 8 * 8 + (a % 8 * 4 + b / 64) / 4,
          (a % 8 * 4 + b / 64) % 4 * 64 + b / 2 % 32 * 2 + (b % 2 * 16 + c / 16) / 16,
          (b % 2 * 16 + c / 16) % 16 * 16 + c % 16 * 2 / 2] := rfl
    rw [hv]
    have e1 : a / 8 * 8 + (a % 8 * 4 + b / 64) / 4 = a := by omega
    have e2 : (a % 8 * 4 + b / 64) % 4 * 64 + b / 2 % 32 * 2 + (b % 2 * 16 + c / 16) / 16 = b := by
      omega
    have e3 : (b % 2 * 16 + c / 16) % 16 * 16 + c % 16 * 2 / 2 = c := by omega
    rw [e1, e2, e3]
  | [a, b, c, d], h => by
    have ha : a < 256 := h a (by simp)
    have hb : b < 256 := h b (by simp)
    have hc : c < 256 := h c (by simp)
    have hd : d < 256 := h d (by simp)
    rw [b32encode, b32decode, seqInv, b32inv_b32char _ (by omega), seqInv,
        b32inv_b32char _ (by omega), seqInv, b32inv_b32char _ (by omega), seqInv,
        b32inv_b32char _ (by omega), seqInv, b32inv_b32char _ (by omega), seqInv,
        b32inv_b32char _ (by omega), seqInv, b32inv_b32char _ (by omega), seqInv]
    simp only [Option.some_bind]
    have hv : b32decodeVals [a / 8, a % 8 * 4 + b / 64, b / 2 % 32, b % 2 * 16 + c / 16,
        c % 16 * 2 + d / 128, d / 4 % 32, d % 4 * 8] =
        some [a / 8 * 8 + (a % 8 * 4 + b / 64) / 4,
          (a % 8 * 4 + b / 64) % 4 * 64 + b / 2 % 32 * 2 + (b % 2 * 16 + c / 16) / 16,
          (b % 2 * 16 + c / 16) % 16 * 16 + (c % 16 * 2 + d / 128) / 2,
          (c % 16 * 2 + d / 128) % 2 * 128 + d / 4 % 32 * 4 + d % 4 * 8 / 8] := rfl
    rw [hv]
    have e1 : a / 8 * 8 + (a % 8 * 4 + b / 64) / 4 = a := by omega
    have e2 : (a % 8 * 4 + b / 64) % 4 * 64 + b / 2 % 32 * 2 + (b % 2 * 16 + c / 16) / 16 = b := by
      omega
    have e3 : (b % 2 * 16 + c / 16) % 16 * 16 + (c % 16 * 2 + d / 128) / 2 = c := by omega
    have e4 : (c % 16 * 2 + d / 128) % 2 * 128 + d / 4 % 32 * 4 + d % 4 * 8 / 8 = d := by omega
    rw [e1, e2, e3, e4]
  | a :: b :: c :: d :: e :: rest, h => by
    have ha : a < 256 := h a (by simp)
    have hb : b < 256 := h b (by simp)
    have hc : c < 256 := h c (by simp)
    have hd : d < 256 := h d (by simp)
    have he : e < 256 := h e (by simp)
    have ih := b32decode_encode rest (fun x hx => h x (by simp [hx]))
    rw [b32decode] at ih
    obtain ⟨vs, hvs, hdec⟩ : ∃ vs, seqInv b32inv (b32encode rest) = some vs ∧
        b32decodeVals vs = some rest := by
      cases hseq : seqInv b32inv (b32encode rest) with
      | none => rw [hseq] at ih; simp at ih
      | some vs => rw [hseq] at ih; exact ⟨vs, rfl, by simpa using ih⟩
    rw [show b32encode (a :: b :: c :: d :: e :: rest) =
        b32char (a / 8) :: b32char (a % 8 * 4 + b / 64) :: b32char (b / 2 % 32) ::
        b32char (b % 2 * 16 + c / 16) :: b32char (c % 16 * 2 + d / 128) :: b32char (d / 4 % 32) ::
        b32char (d % 4 * 8 + e / 32) :: b32char (e % 32) :: b32encode rest from rfl]
    rw [b32decode, seqInv, b32inv_b32char _ (by omega), seqInv, b32inv_b32char _ (by omega),
        seqInv, b32inv_b32char _ (by omega), seqInv, b32inv_b32char _ (by omega),
        seqInv, b32inv_b32char _ (by omega), seqInv, b32inv_b32char _ (by omega),
        seqInv, b32inv_b32char _ (by omega), seqInv, b32inv_b32char _ (by omega), hvs]
    have hlong : ∀ w1 w2 w3 w4 w5 w6 w7 w8 : Nat, ∀ ws,
        b32decodeVals (w1 :: w2 :: w3 :: w4 :: w5 :: w6 :: w7 :: w8 :: ws) =
        (b32decodeVals ws).map
          (fun r => (w1 * 8 + w2 / 4) :: (w2 % 4 * 64 + w3 * 2 + w4 / 16) ::
            (w4 % 16 * 16 + w5 / 2) :: (w5 % 2 * 128 + w6 * 4 + w7 / 8) ::
            (w7 % 8 * 32 + w8) :: r) :=
      fun w1 w2 w3 w4 w5 w6 w7 w8 ws => rfl
    simp only [Option.some_bind, hlong, hdec, Option.map_some]
    have e1 : a / 8 * 8 + (a % 8 * 4 + b / 64) / 4 = a := by omega
    have e2 : (a % 8 * 4 + b / 64) % 4 * 64 + b / 2 % 32 * 2 + (b % 2 * 16 + c / 16) / 16 = b := by
      omega
    have e3 : (b % 2 * 16 + c / 16) % 16 * 16 + (c % 16 * 2 + d / 128) / 2 = c := by omega
    have e4 : (c % 16 * 2 + d / 128) % 2 * 128 + d / 4 % 32 * 4 + (d % 4 * 8 + e / 32) / 8 = d := by
      omega
    have e5 : (d % 4 * 8 + e / 32) % 8 * 32 + e % 32 = e := by omega
    rw [e1, e2, e3, e4, e5]
    rfl

theorem b64encode_length : ∀ l : List Nat, (b64encode l).length = (4 * l.length + 2) / 3
  | [] => rfl
  | [_] => by simp [b64encode]
  | [_, _] => by simp [b64encode]
  | a :: b :: c :: rest => by
    have ih := b64encode_length rest
    rw [show b64encode (a :: b :: c :: rest) =
        b64char (a / 4) :: b64char (a % 4 * 16 + b / 16) :: b64char (b % 16 * 4 + c / 64) ::
        b64char (c % 64) :: b64encode rest from rfl]
    simp only [List.length_cons, ih]
    omega

theorem b32encode_length : ∀ l : List Nat, (b32encode l).length = (8 * l.length + 4) / 5
  | [] => rfl
  | [_] => by simp [b32encode]
  | [_, _] => by simp [b32encode]
  | [_, _, _] => by simp [b32encode]
  | [_, _, _, _] => by simp [b32encode]
  | a :: b :: c :: d :: e :: rest => by
    have ih := b32encode_length rest
    rw [show b32encode (a :: b :: c :: d :: e :: rest) =
        b32char (a / 8) :: b32char (a % 8 * 4 + b / 64) :: b32char (b / 2 % 32) ::
        b32char (b % 2 * 16 + c / 16) :: b32char (c % 16 * 2 + d / 128) :: b32char (d / 4 % 32) ::
        b32char (d % 4 * 8 + e / 32) :: b32char (e % 32) :: b32encode rest from rfl]
    simp only [List.length_cons, ih]
    omega

theorem string64_u8_roundtrip : ∀ b < 32, string64ToU8 (u8ToString64 b) = b := by decide

theorem string32_u8_roundtrip : ∀ b < 32, string32ToU8 (u8ToString32 b) = b := by decide

theorem encrypt_fst (sc : ShortCrypt) (data : List Nat) :
    (sc.encrypt data).1 = crc8cdma2000 data % 32 := rfl

theorem encrypt_fst_lt (sc : ShortCrypt) (data : List Nat) : (sc.encrypt data).1 < 32 := by
  rw [encrypt_fst]
  omega

theorem decrypt_eq_ite (sc : ShortCrypt) (b : Nat) (C : List Nat) :
    sc.decrypt (b, C) =
      if 31 < b then .error baseErrMsg else .ok (sc.decryptInner b C) := rfl

theorem decrypt_encrypt (sc : ShortCrypt) (data : List Nat) :
    sc.decrypt (sc.encrypt data) = .ok data := by
  unfold ShortCrypt.decrypt
  rw [if_neg (by have := encrypt_fst_lt sc data; omega), decryptInner_encrypt]

theorem encrypt_snd_perm (sc : ShortCrypt) (data : List Nat) :
    (sc.encrypt data).2.Perm (maskFrom sc.hashed_key (sc.encrypt data).1 0 data) := by
  rw [encrypt_fst]
  unfold ShortCrypt.encrypt
  simp only []
  set base := crc8cdma2000 data % 32 with hbase
  set enc := maskFrom sc.hashed_key base 0 data with henc
  set path := pathArr sc.hashed_key (xorFold base enc) (sumFold base enc) data.length with hpath
  have hlen_enc : enc.length = data.length := maskFrom_length _ _ _ 0
  have hpl : path.length = data.length := pathArr_length _ _ _ _
  have hb : ∀ p ∈ path, p < enc.length := by
    intro p hp
    rw [hlen_enc]
    exact pathArr_mem_lt _ _ _ _ p hp
  exact applyAsc_perm path enc 0 hb (by omega)

theorem encrypt_snd_length (sc : ShortCrypt) (data : List Nat) :
    (sc.encrypt data).2.length = data.length := by
  rw [List.Perm.length_eq (encrypt_snd_perm sc data), maskFrom_length]

theorem encrypt_snd_lt (sc : ShortCrypt) (data : List Nat)
    (hhk : ∀ x ∈ sc.hashed_key, x < 256) (hdata : ∀ x ∈ data, x < 256) :
    ∀ x ∈ (sc.encrypt data).2, x < 256 := by
  intro x hx
  have hx2 := (List.Perm.mem_iff (encrypt_snd_perm sc data)).mp hx
  exact maskFrom_mem_lt sc.hashed_key _ data hhk (by have := encrypt_fst_lt sc data; omega)
    hdata 0 x hx2

theorem sumFold_insertIdx (bc : Nat) (B : List Nat) (bi : Nat) (h : bi ≤ B.length) :
    sumFold 0 (List.insertIdx bi bc B) = sumFold bc B := by
  rw [sumFold_eq_sum, sumFold_eq_sum]
  rw [List.Perm.sum_eq (List.perm_insertIdx bc B h), List.sum_cons]
  omega

theorem urlRoundtrip_aux (sc : ShortCrypt) (data : List Nat)
    (hhk : ∀ x ∈ sc.hashed_key, x < 256) (hdata : ∀ x ∈ data, x < 256) :
    sc.decryptUrlComponent (sc.encryptToUrlComponent data) = .ok data := by
  unfold ShortCrypt.encryptToUrlComponent
  simp only []
  set base := (sc.encrypt data).1 with hbase
  set body := (sc.encrypt data).2 with hbody
  set bc := u8ToString64 base with hbc
  set B := b64encode body with hB
  set bi := (sc.key_sum_rev ^^^ sumFold bc B) % (B.length + 1) with hbi
  have hbi_le : bi ≤ B.length := by
    have := Nat.mod_lt (sc.key_sum_rev ^^^ sumFold bc B) (show 0 < B.length + 1 by omega)
    omega
  set T := List.insertIdx bi bc B with hT
  have hTlen : T.length = B.length + 1 := List.length_insertIdx bi B hbi_le
  unfold ShortCrypt.decryptUrlComponent
  simp only []
  rw [if_neg (by omega)]
  have hsum : sumFold 0 T = sumFold bc B := sumFold_insertIdx bc B bi hbi_le
  have hbi2 : (sc.key_sum_rev ^^^ sumFold 0 T) % T.length = bi := by
    rw [hsum, hTlen, hbi]
  rw [hbi2]
  have hget : T.getD bi 0 = bc := by
    rw [List.getD_eq_getElem T 0 (show bi < T.length by omega)]
    exact List.getElem_insertIdx_self B bc bi hbi_le
  rw [hget]
  have hb31 : string64ToU8 bc = base := string64_u8_roundtrip base (encrypt_fst_lt sc data)
  rw [hb31, if_neg (by have := encrypt_fst_lt sc data; omega)]
  have herase : T.take bi ++ T.drop (bi + 1) = B := by
    rw [← List.eraseIdx_eq_take_drop_succ, hT, List.eraseIdx_insertIdx]
  rw [herase, b64decode_encode body (encrypt_snd_lt sc data hhk hdata)]
  exact decrypt_encrypt sc data

theorem qrRoundtrip_aux (sc : ShortCrypt) (data : List Nat)
    (hhk : ∀ x ∈ sc.hashed_key, x < 256) (hdata : ∀ x ∈ data, x < 256) :
    sc.decryptQrCodeAlphanumeric (sc.encryptToQrCodeAlphanumeric data) = .ok data := by
  unfold ShortCrypt.encryptToQrCodeAlphanumeric
  simp only []
  set base := (sc.encrypt data).1 with hbase
  set body := (sc.encrypt data).2 with hbody
  set bc := u8ToString32 base with hbc
  set B := b32encode body with hB
  set bi := (sc.key_sum_rev ^^^ sumFold bc B) % (B.length + 1) with hbi
  have hbi_le : bi ≤ B.length := by
    have := Nat.mod_lt (sc.key_sum_rev ^^^ sumFold bc B) (show 0 < B.length + 1 by omega)
    omega
  set T := List.insertIdx bi bc B with hT
  have hTlen : T.length = B.length + 1 := List.length_insertIdx bi B hbi_le
  unfold ShortCrypt.decryptQrCodeAlphanumeric
  simp only []
  rw [if_neg (by omega)]
  have hsum : sumFold 0 T = sumFold bc B := sumFold_insertIdx bc B bi hbi_le
  have hbi2 : (sc.key_sum_rev ^^^ sumFold 0 T) % T.length = bi := by
    rw [hsum, hTlen, hbi]
  rw [hbi2]
  have hget : T.getD bi 0 = bc := by
    rw [List.getD_eq_getElem T 0 (show bi < T.length by omega)]
    exact List.getElem_insertIdx_self B bc bi hbi_le
  rw [hget]
  have hb31 : string32ToU8 bc = base := string32_u8_roundtrip base (encrypt_fst_lt sc data)
  rw [hb31, if_neg (by have := encrypt_fst_lt sc data; omega)]
  have herase : T.take bi ++ T.drop (bi + 1) = B := by
    rw [← List.eraseIdx_eq_take_drop_succ, hT, List.eraseIdx_insertIdx]
  rw [herase, b32decode_encode body (encrypt_snd_lt sc data hhk hdata)]
  exact decrypt_encrypt sc data

theorem beBytes64_mem_lt (x : Nat) : ∀ y ∈ beBytes64 x, y < 256 := by
  intro y hy
  simp only [beBytes64, List.mem_cons, List.not_mem_nil, or_false] at hy
  rcases hy with h | h | h | h | h | h | h | h <;> subst h <;> exact Nat.mod_lt _ (by omega)

theorem new_hashed_key_lt (key : List Nat) : ∀ x ∈ (ShortCrypt.new key).hashed_key, x < 256 :=
  beBytes64_mem_lt _

theorem url_length_aux (sc : ShortCrypt) (data : List Nat) :
    (sc.encryptToUrlComponent data).length = (4 * data.length + 2) / 3 + 1 := by
  unfold ShortCrypt.encryptToUrlComponent
  simp only []
  have hbi_le : (sc.key_sum_rev ^^^ sumFold (u8ToString64 (sc.encrypt data).1)
      (b64encode (sc.encrypt data).2)) % ((b64encode (sc.encrypt data).2).length + 1) ≤
      (b64encode (sc.encrypt data).2).length := by
    have := Nat.mod_lt (sc.key_sum_rev ^^^ sumFold (u8ToString64 (sc.encrypt data).1)
      (b64encode (sc.encrypt data).2))
      (show 0 < (b64encode (sc.encrypt data).2).length + 1 by omega)
    omega
  rw [List.length_insertIdx _ _ hbi_le, b64encode_length, encrypt_snd_length]

theorem qr_length_aux (sc : ShortCrypt) (data : List Nat) :
    (sc.encryptToQrCodeAlphanumeric data).length = (8 * data.length + 4) / 5 + 1 := by
  unfold ShortCrypt.encryptToQrCodeAlphanumeric
  simp only []
  have hbi_le : (sc.key_sum_rev ^^^ sumFold (u8ToString32 (sc.encrypt data).1)
      (b32encode (sc.encrypt data).2)) % ((b32encode (sc.encrypt data).2).length + 1) ≤
      (b32encode (sc.encrypt data).2).length := by
    have := Nat.mod_lt (sc.key_sum_rev ^^^ sumFold (u8ToString32 (sc.encrypt data).1)
      (b32encode (sc.encrypt data).2))
      (show 0 < (b32encode (sc.encrypt data).2).length + 1 by omega)
    omega
  rw [List.length_insertIdx _ _ hbi_le, b32encode_length, encrypt_snd_length]

theorem insertIdx_length_add (Q B : List Nat) (a : Nat) :
    ∀ n, List.insertIdx (Q.length + n) a (Q ++ B) = Q ++ List.insertIdx n a B := by
  induction Q with
  | nil => intro n; simp
  | cons q Q ih =>
    intro n
    rw [show (q :: Q).length + n = (Q.length + n) + 1 by simp [Nat.add_right_comm],
        List.cons_append, List.insertIdx_succ_cons, ih n, List.cons_append]

theorem url_push_aux (sc : ShortCrypt) (data output : List Nat) :
    sc.encryptToUrlComponentAndPushToString data output =
      output ++ sc.encryptToUrlComponent data := by
  unfold ShortCrypt.encryptToUrlComponentAndPushToString ShortCrypt.encryptToUrlComponent
  simp only []
  rw [List.drop_left, show (output ++ b64encode (sc.encrypt data).2).length - output.length =
    (b64encode (sc.encrypt data).2).length by simp, insertIdx_length_add]

theorem qr_push_aux (sc : ShortCrypt) (data output : List Nat) :
    sc.encryptToQrCodeAlphanumericAndPushToString data output =
      output ++ sc.encryptToQrCodeAlphanumeric data := by
  unfold ShortCrypt.encryptToQrCodeAlphanumericAndPushToString
    ShortCrypt.encryptToQrCodeAlphanumeric
  simp only []
  rw [List.drop_left, show (output ++ b32encode (sc.encrypt data).2).length - output.length =
    (b32encode (sc.encrypt data).2).length by simp, insertIdx_length_add]

theorem decryptInner_length (sc : ShortCrypt) (b : Nat) (C : List Nat) :
    (sc.decryptInner b C).length = C.length := by
  unfold ShortCrypt.decryptInner
  simp only []
  rw [maskFrom_length, applyDesc_length]

theorem decryptUrl_cases (sc : ShortCrypt) (T : List Nat) :
    (sc.decryptUrlComponent T = .error urlErrMsg ∨ ∃ r, sc.decryptUrlComponent T = .ok r) ∧
    (sc.decryptUrlComponent T = .error urlErrMsg ↔
      (T.length < 1 ∨
        31 < string64ToU8 (T.getD ((sc.key_sum_rev ^^^ sumFold 0 T) % T.length) 0) ∨
        b64decode (T.take ((sc.key_sum_rev ^^^ sumFold 0 T) % T.length) ++
          T.drop ((sc.key_sum_rev ^^^ sumFold 0 T) % T.length + 1)) = none)) := by
  unfold ShortCrypt.decryptUrlComponent
  simp only []
  set bi := (sc.key_sum_rev ^^^ sumFold 0 T) % T.length with hbi
  by_cases h1 : T.length < 1
  · rw [if_pos h1]
    exact ⟨Or.inl rfl, ⟨fun _ => Or.inl h1, fun _ => rfl⟩⟩
  · rw [if_neg h1]
    by_cases h2 : 31 < string64ToU8 (T.getD bi 0)
    · rw [if_pos h2]
      exact ⟨Or.inl rfl, ⟨fun _ => Or.inr (Or.inl h2), fun _ => rfl⟩⟩
    · rw [if_neg h2]
      cases hdec : b64decode (T.take bi ++ T.drop (bi + 1)) with
      | none =>
        exact ⟨Or.inl rfl, ⟨fun _ => Or.inr (Or.inr rfl), fun _ => rfl⟩⟩
      | some enc =>
        have hok : sc.decrypt (string64ToU8 (T.getD bi 0), enc) =
            .ok (sc.decryptInner (string64ToU8 (T.getD bi 0)) enc) := by
          unfold ShortCrypt.decrypt
          rw [if_neg (by simp only []; omega)]
        refine ⟨Or.inr ⟨_, hok⟩, ⟨fun h => ?_, fun h => ?_⟩⟩
        · rw [show (match some enc with
            | none => (Except.error urlErrMsg : Except String (List Nat))
            | some enc => sc.decrypt (string64ToU8 (T.getD bi 0), enc)) =
            sc.decrypt (string64ToU8 (T.getD bi 0), enc) from rfl, hok] at h
          exact absurd h (by simp)
        · rcases h with h | h | h
          · exact absurd h h1
          · exact absurd h h2
          · exact absurd h (by simp)

theorem decryptQr_cases (sc : ShortCrypt) (T : List Nat) :
    (sc.decryptQrCodeAlphanumeric T = .error qrErrMsg ∨
      ∃ r, sc.decryptQrCodeAlphanumeric T = .ok r) ∧
    (sc.decryptQrCodeAlphanumeric T = .error qrErrMsg ↔
      (T.length < 1 ∨
        31 < string32ToU8 (T.getD ((sc.key_sum_rev ^^^ sumFold 0 T) % T.length) 0) ∨
        b32decode (T.take ((sc.key_sum_rev ^^^ sumFold 0 T) % T.length) ++
          T.drop ((sc.key_sum_rev ^^^ sumFold 0 T) % T.length + 1)) = none)) := by
  unfold ShortCrypt.decryptQrCodeAlphanumeric
  simp only []
  set bi := (sc.key_sum_rev ^^^ sumFold 0 T) % T.length with hbi
  by_cases h1 : T.length < 1
  · rw [if_pos h1]
    exact ⟨Or.inl rfl, ⟨fun _ => Or.inl h1, fun _ => rfl⟩⟩
  · rw [if_neg h1]
    by_cases h2 : 31 < string32ToU8 (T.getD bi 0)
    · rw [if_pos h2]
      exact ⟨Or.inl rfl, ⟨fun _ => Or.inr (Or.inl h2), fun _ => rfl⟩⟩
    · rw [if_neg h2]
      cases hdec : b32decode (T.take bi ++ T.drop (bi + 1)) with
      | none =>
        exact ⟨Or.inl rfl, ⟨fun _ => Or.inr (Or.inr rfl), fun _ => rfl⟩⟩
      | some enc =>
        have hok : sc.decrypt (string32ToU8 (T.getD bi 0), enc) =
            .ok (sc.decryptInner (string32ToU8 (T.getD bi 0)) enc) := by
          unfold ShortCrypt.decrypt
          rw [if_neg (by simp only []; omega)]
        refine ⟨Or.inr ⟨_, hok⟩, ⟨fun h => ?_, fun h => ?_⟩⟩
        · rw [show (match some enc with
            | none => (Except.error qrErrMsg : Except String (List Nat))
            | some enc => sc.decrypt (string32ToU8 (T.getD bi 0), enc)) =
            sc.decrypt (string32ToU8 (T.getD bi 0), enc) from rfl, hok] at h
          exact absurd h (by simp)
        · rcases h with h | h | h
          · exact absurd h h1
          · exact absurd h h2
          · exact absurd h (by simp)

/-- Claim C1: for every key and every plaintext byte sequence, decrypting the
URL-component transport form and the QR-code alphanumeric transport form of
the plaintext returns the plaintext exactly, both calls succeeding. -/
theorem url_qr_transport_roundtrip (key data : List Nat) (h : ∀ x ∈ data, x < 256) :
    (ShortCrypt.new key).decryptUrlComponent
      ((ShortCrypt.new key).encryptToUrlComponent data) = .ok data ∧
    (ShortCrypt.new key).decryptQrCodeAlphanumeric
      ((ShortCrypt.new key).encryptToQrCodeAlphanumeric data) = .ok data :=
  ⟨urlRoundtrip_aux _ _ (new_hashed_key_lt key) h,
   qrRoundtrip_aux _ _ (new_hashed_key_lt key) h⟩

/-- Witness for claim C1 at the reference key and plaintext of spec section 8. -/
theorem url_qr_transport_roundtrip_witness :
    (ShortCrypt.new keyMagickey).decryptUrlComponent
      ((ShortCrypt.new keyMagickey).encryptToUrlComponent ptArticles) = .ok ptArticles ∧
    (ShortCrypt.new keyMagickey).decryptQrCodeAlphanumeric
      ((ShortCrypt.new keyMagickey).encryptToQrCodeAlphanumeric ptArticles) = .ok ptArticles :=
  url_qr_transport_roundtrip keyMagickey ptArticles (by decide)

/-- Claim C2: decrypt of encrypt succeeds and returns the plaintext for every
key and every plaintext, and in general the swap sequence applied in ascending
index order is undone by the same swap sequence applied in descending index
order. -/
theorem decrypt_encrypt_roundtrip (key data : List Nat) :
    (ShortCrypt.new key).decrypt ((ShortCrypt.new key).encrypt data) = .ok data ∧
    (∀ (l path : List Nat) (i : Nat), (∀ p ∈ path, p < l.length) →
      i + path.length ≤ l.length → applyDesc (applyAsc l path i) path i = l) :=
  ⟨decrypt_encrypt _ data, fun l path i hb hi => applyDesc_applyAsc path l i hb hi⟩

/-- Counterexample to claim C3 as stated: at key magickey and plaintext [97],
seeding the insertion sum with the numeric base value, as spec section 4.4
step 4 demands, places the base character elsewhere than the code does. -/
theorem url_base_index_spec_counterexample :
    encryptToUrlComponentSpecSum (ShortCrypt.new keyMagickey) [97] ≠
      (ShortCrypt.new keyMagickey).encryptToUrlComponent [97] := by decide

/-- Claim C3 as amended: in encryptToUrlComponent the insertion position is
computed from sum2 = ascii code of the base character plus the sum of the byte
values of the base-64-url encoded body, wrapping in u64, and the position is
(key_sum_rev xor sum2) mod (length of the encoded body + 1). -/
theorem url_base_index_ascii (key data : List Nat) :
    (ShortCrypt.new key).encryptToUrlComponent data =
      List.insertIdx
        (((ShortCrypt.new key).key_sum_rev ^^^
          ((u8ToString64 ((ShortCrypt.new key).encrypt data).1 +
            (b64encode ((ShortCrypt.new key).encrypt data).2).sum) % 2 ^ 64)) %
          ((b64encode ((ShortCrypt.new key).encrypt data).2).length + 1))
        (u8ToString64 ((ShortCrypt.new key).encrypt data).1)
        (b64encode ((ShortCrypt.new key).encrypt data).2) := by
  unfold ShortCrypt.encryptToUrlComponent
  simp only []
  rw [sumFold_eq_sum]

/-- Claim C4: for every key and input text, each transport decrypt either
returns a plaintext or fails with the malformed error, with no other outcome;
it fails exactly when the text is empty, the byte at the recovered base index
decodes above 31, or decoding the remaining body fails; the base-character
decoding maps are total and byte-valued on every input byte. -/
theorem transport_decrypt_outcomes (key T : List Nat) :
    ((ShortCrypt.new key).decryptUrlComponent T = .error urlErrMsg ∨
      ∃ r, (ShortCrypt.new key).decryptUrlComponent T = .ok r) ∧
    ((ShortCrypt.new key).decryptUrlComponent T = .error urlErrMsg ↔
      (T.length < 1 ∨
        31 < string64ToU8 (T.getD (((ShortCrypt.new key).key_sum_rev ^^^ sumFold 0 T) %
          T.length) 0) ∨
        b64decode (T.take (((ShortCrypt.new key).key_sum_rev ^^^ sumFold 0 T) % T.length) ++
          T.drop (((ShortCrypt.new key).key_sum_rev ^^^ sumFold 0 T) % T.length + 1)) = none)) ∧
    ((ShortCrypt.new key).decryptQrCodeAlphanumeric T = .error qrErrMsg ∨
      ∃ r, (ShortCrypt.new key).decryptQrCodeAlphanumeric T = .ok r) ∧
    ((ShortCrypt.new key).decryptQrCodeAlphanumeric T = .error qrErrMsg ↔
      (T.length < 1 ∨
        31 < string32ToU8 (T.getD (((ShortCrypt.new key).key_sum_rev ^^^ sumFold 0 T) %
          T.length) 0) ∨
        b32decode (T.take (((ShortCrypt.new key).key_sum_rev ^^^ sumFold 0 T) % T.length) ++
          T.drop (((ShortCrypt.new key).key_sum_rev ^^^ sumFold 0 T) % T.length + 1)) = none)) ∧
    (∀ c < 256, string32ToU8 c < 256 ∧ string64ToU8 c ≤ 63) :=
  ⟨(decryptUrl_cases _ T).1, (decryptUrl_cases _ T).2,
   (decryptQr_cases _ T).1, (decryptQr_cases _ T).2, by decide⟩

/-- Claim C5: the reference vectors of spec section 8 for key magickey and
plaintext articles, in both directions and all three forms. -/
theorem reference_vectors_magickey :
    (ShortCrypt.new keyMagickey).encrypt ptArticles = (8, [216, 78, 214, 199, 157, 190, 78, 250]) ∧
    (ShortCrypt.new keyMagickey).encryptToUrlComponent ptArticles = urlArticles ∧
    (ShortCrypt.new keyMagickey).encryptToQrCodeAlphanumeric ptArticles = qrArticles ∧
    (ShortCrypt.new keyMagickey).decrypt (8, [216, 78, 214, 199, 157, 190, 78, 250]) =
      .ok ptArticles ∧
    (ShortCrypt.new keyMagickey).decryptUrlComponent urlArticles = .ok ptArticles ∧
    (ShortCrypt.new keyMagickey).decryptQrCodeAlphanumeric qrArticles = .ok ptArticles :=
  ⟨rfl, rfl, rfl, rfl, rfl, rfl⟩

/-- Claim C6: the base of encrypt lies in [0, 31], the body has the plaintext
length n, the URL component has length ceil(4n/3) + 1, written here as
(4n + 2) / 3 + 1 in natural division, and the QR text has length
ceil(8n/5) + 1, written as (8n + 4) / 5 + 1. -/
theorem encrypt_output_lengths (key data : List Nat) :
    ((ShortCrypt.new key).encrypt data).1 ≤ 31 ∧
    ((ShortCrypt.new key).encrypt data).2.length = data.length ∧
    ((ShortCrypt.new key).encryptToUrlComponent data).length = (4 * data.length + 2) / 3 + 1 ∧
    ((ShortCrypt.new key).encryptToQrCodeAlphanumeric data).length =
      (8 * data.length + 4) / 5 + 1 :=
  ⟨by have := encrypt_fst_lt (ShortCrypt.new key) data; omega,
   encrypt_snd_length _ _, url_length_aux _ _, qr_length_aux _ _⟩

/-- Claim C7: raw decrypt fails with the invalid-base error exactly when the
base exceeds 31; for a base at most 31 it always succeeds with a result of the
body's length, with no integrity check. -/
theorem decrypt_invalid_base_characterization (key : List Nat) (b : Nat) (C : List Nat) :
    ((ShortCrypt.new key).decrypt (b, C) = .error baseErrMsg ↔ 31 < b) ∧
    (b ≤ 31 → (ShortCrypt.new key).decrypt (b, C) =
      .ok ((ShortCrypt.new key).decryptInner b C) ∧
      ((ShortCrypt.new key).decryptInner b C).length = C.length) := by
  rw [decrypt_eq_ite]
  constructor
  · by_cases hb : 31 < b
    · rw [if_pos hb]
      exact ⟨fun _ => hb, fun _ => rfl⟩
    · rw [if_neg hb]
      exact ⟨fun h => absurd h (by simp), fun h => absurd h hb⟩
  · intro hb
    rw [if_neg (by omega)]
    exact ⟨rfl, decryptInner_length _ _ _⟩

/-- Claim C8: both push-to-string encrypt variants produce exactly the given
prefix followed by the output of the plain variant, for every prefix. -/
theorem push_to_string_append (key data output : List Nat) :
    (ShortCrypt.new key).encryptToUrlComponentAndPushToString data output =
      output ++ (ShortCrypt.new key).encryptToUrlComponent data ∧
    (ShortCrypt.new key).encryptToQrCodeAlphanumericAndPushToString data output =
      output ++ (ShortCrypt.new key).encryptToQrCodeAlphanumeric data :=
  ⟨url_push_aux _ _ _, qr_push_aux _ _ _⟩

/-- Claim C9: encrypt of the empty sequence is the CRC-8 of the empty stream
mod 32 with an empty body; the path of an empty body is the empty list, so the
mod len expression is never evaluated; decrypt of an empty body under any base
at most 31 returns the empty sequence. -/
theorem encrypt_empty_input (key : List Nat) :
    (ShortCrypt.new key).encrypt [] = (crc8cdma2000 [] % 32, []) ∧
    pathArr (ShortCrypt.new key).hashed_key (crc8cdma2000 [] % 32) (crc8cdma2000 [] % 32) 0 =
      [] ∧
    (∀ b ≤ 31, (ShortCrypt.new key).decrypt (b, []) = .ok []) :=
  ⟨rfl, rfl, fun b hb => by rw [decrypt_eq_ite, if_neg (by omega)]; rfl⟩

/-- Claim C10: the body of encrypt is a rearrangement of the masked sequence
obtained by xoring each plaintext byte with hashed_key[i mod 8] xor base, so
the xor fold and the wrapping byte sum over the body agree with those over the
masked sequence, and the permutation path recomputed from the body equals the
path computed from the masked sequence. -/
theorem encrypt_body_permutation (key data : List Nat) :
    (((ShortCrypt.new key).encrypt data).2).Perm
      (maskFrom (ShortCrypt.new key).hashed_key ((ShortCrypt.new key).encrypt data).1 0 data) ∧
    xorFold ((ShortCrypt.new key).encrypt data).1 ((ShortCrypt.new key).encrypt data).2 =
      xorFold ((ShortCrypt.new key).encrypt data).1
        (maskFrom (ShortCrypt.new key).hashed_key ((ShortCrypt.new key).encrypt data).1 0 data) ∧
    sumFold ((ShortCrypt.new key).encrypt data).1 ((ShortCrypt.new key).encrypt data).2 =
      sumFold ((ShortCrypt.new key).encrypt data).1
        (maskFrom (ShortCrypt.new key).hashed_key ((ShortCrypt.new key).encrypt data).1 0 data) ∧
    pathArr (ShortCrypt.new key).hashed_key
      (xorFold ((ShortCrypt.new key).encrypt data).1 ((ShortCrypt.new key).encrypt data).2)
      (sumFold ((ShortCrypt.new key).encrypt data).1 ((ShortCrypt.new key).encrypt data).2)
      ((ShortCrypt.new key).encrypt data).2.length =
    pathArr (ShortCrypt.new key).hashed_key
      (xorFold ((ShortCrypt.new key).encrypt data).1
        (maskFrom (ShortCrypt.new key).hashed_key ((ShortCrypt.new key).encrypt data).1 0 data))
      (sumFold ((ShortCrypt.new key).encrypt data).1
        (maskFrom (ShortCrypt.new key).hashed_key ((ShortCrypt.new key).encrypt data).1 0 data))
      (maskFrom (ShortCrypt.new key).hashed_key
        ((ShortCrypt.new key).encrypt data).1 0 data).length := by
  have hperm := encrypt_snd_perm (ShortCrypt.new key) data
  refine ⟨hperm, xorFold_perm hperm _, sumFold_perm hperm _, ?_⟩
  rw [xorFold_perm hperm, sumFold_perm hperm, List.Perm.length_eq hperm]
